import Mathlib

/-!
Shallow embedding of `fetch_music_data.py` (class `MusicDataFetcher`) and proofs
about its release-aggregation and identity-resolution pipeline.

Python strings are modelled as `List Char`.  Character classes (`str.lower`,
`\w`, `\s`, `\d`) are modelled at their ASCII meaning, which is the domain the
program works in; `re` substitutions are modelled pattern by pattern.  Python
float comparison of small word-overlap ratios is modelled with exact rationals.
-/

/-- Python truthiness of an optional string: `None` and `''` are falsy. -/
def truthy : Option (List Char) → Bool
  | none => false
  | some s => !s.isEmpty

/-- Case preserving prefix test on character lists. -/
def beginsWith : List Char → List Char → Bool
  | [], _ => true
  | _ :: _, [] => false
  | a :: as, b :: bs => a == b && beginsWith as bs

/-- Python `needle in hay` substring test on character lists. -/
def containsCh (needle : List Char) : List Char → Bool
  | [] => needle.isEmpty
  | c :: cs => beginsWith needle (c :: cs) || containsCh needle cs

/-- Split a character list at every separator satisfying `p`, keeping empty
pieces, like Python `str.split(sep)` for a one-character separator. -/
def splitIf (p : Char → Bool) : List Char → List (List Char)
  | [] => [[]]
  | c :: cs =>
    if p c then [] :: splitIf p cs
    else
      match splitIf p cs with
      | [] => [[c]]
      | w :: ws => (c :: w) :: ws

/-- Python `str.split()` with no argument: split on whitespace runs, dropping
empty pieces. -/
def pyWords (l : List Char) : List (List Char) :=
  (splitIf Char.isWhitespace l).filter (· ≠ [])

/-- Python `str.strip()`: drop leading and trailing whitespace. -/
def pyStrip (l : List Char) : List Char :=
  ((l.dropWhile Char.isWhitespace).reverse.dropWhile Char.isWhitespace).reverse

/-- Helper of `squeezeWs`: the flag records whether the previous character
was whitespace (so the current run is already represented). -/
def squeezeWsAux (prevWs : Bool) : List Char → List Char
  | [] => []
  | c :: cs =>
    if c.isWhitespace then
      if prevWs then squeezeWsAux true cs else ' ' :: squeezeWsAux true cs
    else c :: squeezeWsAux false cs

/-- Python `re.sub(r'\s+', ' ', s)`: replace every whitespace run by a single
space. -/
def squeezeWs (l : List Char) : List Char := squeezeWsAux false l

/-- Python `', '.join`-style join of pieces with a separator. -/
def joinWith (sep : List Char) : List (List Char) → List Char
  | [] => []
  | [w] => w
  | w :: ws => w ++ sep ++ joinWith sep ws

/-- Python regex word character `\w`, at its ASCII meaning: alphanumeric or
underscore. -/
def pyWordChar (c : Char) : Bool := c.isAlphanum || c == '_'

/-- `MusicDataFetcher.normalize_string`: lower-case, replace hyphens with
spaces, drop characters matching `[^\w\s]`, collapse whitespace runs to one
space and strip the ends. -/
def normalize_string (s : List Char) : List Char :=
  let s1 := s.map Char.toLower
  let s2 := s1.map fun c => if c == '-' then ' ' else c
  let s3 := s2.filter fun c => pyWordChar c || c.isWhitespace
  pyStrip (squeezeWs s3)

/-- Word set of a string, as used by `strings_match` (`set(s.split())`). -/
def wordSet (s : List Char) : Finset (List Char) := (pyWords s).toFinset

/-- `MusicDataFetcher.strings_match`: exact match after normalization, then
containment, then word-overlap ratio against the threshold (default `0.7`). -/
def strings_match (str1 str2 : List Char) (threshold : ℚ := 7/10) : Bool :=
  let norm1 := normalize_string str1
  let norm2 := normalize_string str2
  if norm1 = norm2 then true
  else if containsCh norm1 norm2 || containsCh norm2 norm1 then true
  else
    let words1 := wordSet norm1
    let words2 := wordSet norm2
    if words1 = ∅ ∨ words2 = ∅ then false
    else
      let overlap := (words1 ∩ words2).card
      let total := min words1.card words2.card
      if 0 < total then decide (threshold ≤ (overlap : ℚ) / (total : ℚ)) else false

/-- The normalizer exactly as claimed by the spec: every non-alphanumeric,
non-whitespace character is removed (in particular, underscores would be
removed).  Used to compare the spec's words with the code. -/
def claimNormalize (s : List Char) : List Char :=
  let s1 := s.map Char.toLower
  let s2 := s1.map fun c => if c == '-' then ' ' else c
  let s3 := s2.filter fun c => c.isAlphanum || c.isWhitespace
  pyStrip (squeezeWs s3)

/-- The normalizer as amended: characters that are neither alphanumeric nor
underscore nor whitespace are removed; otherwise as the spec says. -/
def amendedNormalize (s : List Char) : List Char :=
  let s1 := s.map Char.toLower
  let s2 := s1.map fun c => if c == '-' then ' ' else c
  let s3 := s2.filter fun c => c.isAlphanum || c == '_' || c.isWhitespace
  pyStrip (squeezeWs s3)

/-! ## Dates

`datetime` values are modelled as a civil date plus seconds within the day and
compared through their count of seconds since the epoch.  The day count uses
the standard civil-calendar formula with truncating division, mirroring the
proleptic Gregorian calendar that `datetime` implements. -/

/-- A civil date as Python `datetime.date` holds it. -/
structure PyDate where
  y : Nat
  m : Nat
  d : Nat
deriving Repr, DecidableEq

/-- Days since 1970-01-01 of a civil date (Hinnant's `days_from_civil`). -/
def daysFromCivil (y m d : Int) : Int :=
  let yAdj : Int := if m ≤ 2 then y - 1 else y
  let era : Int := (if 0 ≤ yAdj then yAdj else yAdj - 399).tdiv 400
  let yoe : Int := yAdj - era * 400
  let mp : Int := (m + 9) % 12
  let doy : Int := (153 * mp + 2).tdiv 5 + d - 1
  let doe : Int := yoe * 365 + yoe.tdiv 4 - yoe.tdiv 100 + doy
  era * 146097 + doe - 719468

/-- Day number of a `PyDate`. -/
def dateDays (dt : PyDate) : Int := daysFromCivil dt.y dt.m dt.d

/-- Seconds since the epoch of a date taken at midnight, the value a parsed
release date compares as. -/
def dateTicks (dt : PyDate) : Int := dateDays dt * 86400

/-- A `datetime.datetime`: civil date plus seconds within the day. -/
structure PyDateTime where
  date : PyDate
  sec : Nat
deriving Repr, DecidableEq

/-- Seconds since the epoch of a `datetime` value. -/
def dtTicks (t : PyDateTime) : Int := dateTicks t.date + t.sec

/-- Parse a non-empty all-digit character list, modelling `int(s)` on the
strings the program meets. -/
def parseDigits : List Char → Option Nat
  | [] => none
  | cs =>
    if cs.all Char.isDigit then
      some (cs.foldl (fun acc c => acc * 10 + (c.toNat - 48)) 0)
    else none

/-- Gregorian leap-year test. -/
def isLeapYear (y : Nat) : Bool := (y % 4 == 0 && y % 100 != 0) || y % 400 == 0

/-- Number of days of a month. -/
def daysInMonth (y m : Nat) : Nat :=
  if m = 2 then (if isLeapYear y then 29 else 28)
  else if m = 4 ∨ m = 6 ∨ m = 9 ∨ m = 11 then 30
  else 31

/-- Build a date, enforcing the range checks `datetime` performs. -/
def mkValidDate (y m d : Nat) : Option PyDate :=
  if 1 ≤ y ∧ y ≤ 9999 ∧ 1 ≤ m ∧ m ≤ 12 ∧ 1 ≤ d ∧ d ≤ daysInMonth y m then
    some ⟨y, m, d⟩
  else none

/-- `datetime.strptime(s, "%Y-%m")` on a 7-character input, modelled for the
zero-padded form the catalog emits. -/
def parseYearMonth : List Char → Option PyDate
  | [a, b, c, d, dash, e, f] =>
    if dash = '-' then do
      let y ← parseDigits [a, b, c, d]
      let m ← parseDigits [e, f]
      mkValidDate y m 1
    else none
  | _ => none

/-- `datetime.strptime(s, "%Y-%m-%d")`, modelled for the zero-padded form the
catalogs emit. -/
def parseFullDate : List Char → Option PyDate
  | [a, b, c, d, dash1, e, f, dash2, g, h] =>
    if dash1 = '-' ∧ dash2 = '-' then do
      let y ← parseDigits [a, b, c, d]
      let m ← parseDigits [e, f]
      let dd ← parseDigits [g, h]
      mkValidDate y m dd
    else none
  | _ => none

/-- The release-date parse both filter stages perform: 4 characters mean a
year (taken at January 1), 7 mean year-month (taken at day 1), anything else
must be a full date; failures drop the item. -/
def parseReleaseDate (s : List Char) : Option PyDate :=
  if s.length = 4 then (parseDigits s).bind fun y => mkValidDate y 1 1
  else if s.length = 7 then parseYearMonth s
  else parseFullDate s

/-! ## The release data model -/

/-- A contributing artist as the catalog returns it. -/
structure Artist where
  id : List Char
  name : List Char
deriving Repr, DecidableEq

/-- An album record as the catalog returns it.  Fields the code reads through
`.get` with a default are optional; fields it indexes directly are plain. -/
structure Album where
  id : Option (List Char)
  name : List Char
  artists : List Artist
  release_date : List Char
  images : List (List Char)
  spotify_url : List Char
  total_tracks : Option Nat
  album_type : Option (List Char)
  popularity : Option Nat
deriving Repr, DecidableEq

/-- `album.get('popularity', 0)`. -/
def popOf (a : Album) : Nat := a.popularity.getD 0

/-! ## Ranking

`list.sort(key=..., reverse=True)` is a stable descending sort; any stable
sort computes the same list, so it is modelled by stable insertion. -/

/-- Insert an element into a popularity-descending list, before the first
strictly less popular entry, so that earlier input elements stay first among
equals. -/
def insertPopDesc (a : Album) : List Album → List Album
  | [] => [a]
  | b :: bs => if popOf b ≤ popOf a then a :: b :: bs else b :: insertPopDesc a bs

/-- Stable sort by popularity, highest first. -/
def sortPopDesc : List Album → List Album
  | [] => []
  | a :: as => insertPopDesc a (sortPopDesc as)

/-! ## Deduplicating merge -/

/-- Body of the `seen_ids` loops: keep an album when its id is truthy and not
seen before. -/
def dedupByIdAux (seen : List (List Char)) : List Album → List Album
  | [] => []
  | a :: as =>
    match a.id with
    | some i =>
      if i ≠ [] ∧ i ∉ seen then a :: dedupByIdAux (i :: seen) as
      else dedupByIdAux seen as
    | none => dedupByIdAux seen as

/-- The deduplicating merge used in `get_genre_releases` and
`get_releases_from_artist_database`: first occurrence of each id is kept. -/
def dedupById (albums : List Album) : List Album := dedupByIdAux [] albums

/-! ## Filter pipelines -/

/-- Genre tags joined and lowered as `filter_by_genre_and_recency` compares
them: `' '.join(artist_genres).lower()`. -/
def genresJoined (genres : List (List Char)) : List Char :=
  (joinWith [' '] genres).map Char.toLower

/-- The per-album decision of `filter_by_genre_and_recency`.  `artistGenres`
models `get_artist_info(artist_id).get('genres', [])`. -/
def fbgarKeep (artistGenres : List Char → List (List Char)) (now : PyDateTime)
    (genreKeywords : List Char) (days : Nat) (trustSource : Bool)
    (minPopularity : Nat) (album : Album) : Bool :=
  match parseReleaseDate album.release_date with
  | none => false
  | some d =>
    if popOf album < minPopularity then false
    else if trustSource then d.y == now.date.y
    else if dateTicks d < dtTicks now - days * 86400 then false
    else
      match album.artists with
      | [] => false
      | ar :: _ =>
        let genres := artistGenres ar.id
        if genres ≠ [] then
          (pyWords genreKeywords).any fun kw =>
            containsCh (kw.map Char.toLower) (genresJoined genres)
        else true

/-- `MusicDataFetcher.filter_by_genre_and_recency`: per-album filtering, then a
stable popularity-descending sort, then `filtered[:10]`. -/
def filter_by_genre_and_recency (artistGenres : List Char → List (List Char))
    (now : PyDateTime) (albums : List Album) (genreKeywords : List Char)
    (days : Nat) (trustSource : Bool) (minPopularity : Nat) : List Album :=
  (sortPopDesc (albums.filter
    (fbgarKeep artistGenres now genreKeywords days trustSource minPopularity))).take 10

/-- The per-album decision of the filter stage of `get_genre_releases`:
60-day window, popularity threshold, and a genre check that drops albums whose
artist has no genre tags. -/
def genreKeep (artistGenres : List Char → List (List Char)) (now : PyDateTime)
    (keywordsList : List (List Char)) (minPopularity : Nat) (album : Album) : Bool :=
  match parseReleaseDate album.release_date with
  | none => false
  | some d =>
    if dateTicks d < dtTicks now - 60 * 86400 then false
    else if popOf album < minPopularity then false
    else
      match album.artists with
      | [] => false
      | ar :: _ =>
        let genres := artistGenres ar.id
        if genres ≠ [] then
          keywordsList.any fun kw => containsCh kw (genresJoined genres)
        else false

/-- The search terms `get_genre_releases` derives from its keywords. -/
def searchTermsFor (genreKeywords : List Char) : List (List Char) :=
  let gl := genreKeywords.map Char.toLower
  if containsCh "hip hop".toList gl || containsCh "rap".toList gl then
    ["rap".toList, "hip hop".toList, "trap".toList]
  else if containsCh "rock".toList gl || containsCh "indie".toList gl ||
      containsCh "alternative".toList gl then
    ["rock".toList, "indie".toList, "alternative".toList]
  else
    [pyStrip ((splitIf (· == ',') genreKeywords).headD [])]

/-- The comma-split, stripped, lowered keyword list of `get_genre_releases`. -/
def commaKeywords (genreKeywords : List Char) : List (List Char) :=
  (splitIf (· == ',') genreKeywords).map fun kw => (pyStrip kw).map Char.toLower

/-- `MusicDataFetcher.get_genre_releases` with its two source adapters passed
as collaborators: merge-dedup the adapter lists, filter, and return the whole
stable-sorted result (no size cap). -/
def get_genre_releases (newReleases : List Album) (searchByTerm : List Char → List Album)
    (artistGenres : List Char → List (List Char)) (now : PyDateTime)
    (genreKeywords : List Char) (minPopularity : Nat) : List Album :=
  let searchResults := (searchTermsFor genreKeywords).flatMap searchByTerm
  let allReleases := dedupById (newReleases ++ searchResults)
  sortPopDesc (allReleases.filter
    (genreKeep artistGenres now (commaKeywords genreKeywords) minPopularity))

/-! ## Cross-catalog resolver: `search_itunes_for_album`

The iTunes HTTP collaborator is a function from query term to an optional
response; `none` models a transport failure, which the surrounding
`try/except` turns into a `None` result.  Exceptions raised inside the loop
(a malformed date reaching `strptime`) propagate the same way and are carried
in an `Except`. -/

/-- One record of an iTunes search response.  Fields the code reads through
`.get` with a default are folded in; `collectionViewUrl` defaults to `None`. -/
structure ITunesResult where
  collectionName : List Char
  artistName : List Char
  collectionType : List Char
  trackCount : Nat
  releaseDate : List Char
  collectionViewUrl : Option (List Char)
deriving Repr, DecidableEq

/-- An iTunes search response body. -/
structure ITunesResponse where
  resultCount : Nat
  results : List ITunesResult
deriving Repr, DecidableEq

/-- The `best_match` dictionary (the fields the control flow reads). -/
structure BestMatch where
  url : List Char
  score : Nat
  attempt : Nat
deriving Repr, DecidableEq

/-- How the query loop can exit early: an exception, or the strong-match
early return of a URL. -/
inductive SearchExit where
  | exn
  | found (url : List Char)
deriving Repr, DecidableEq

/-- `best_match_score`: the score of the tracked best match, `0` before any
match is recorded. -/
def bestScore (st : Option BestMatch) : Nat := (st.map BestMatch.score).getD 0

/-- The release-date proximity part of the candidate score: `+50` on equal
date strings, else `+25` within 7 days, parsing both dates with
`strptime('%Y-%m-%d')`; a parse failure raises. -/
def dateProximityScore (releaseDate resultRelease : List Char) : Except Unit Nat :=
  if releaseDate ≠ [] ∧ resultRelease ≠ [] then
    if releaseDate = resultRelease then .ok 50
    else
      match parseFullDate releaseDate, parseFullDate resultRelease with
      | some d1, some d2 =>
        .ok (if (dateDays d1 - dateDays d2).natAbs ≤ 7 then 25 else 0)
      | _, _ => .error ()
  else .ok 0

/-- The `if apple_music_url and score > best_match_score` update of the
tracked best match: only a truthy URL is recorded, and only on a strictly
better score. -/
def recordBest (st : Option BestMatch) (url : Option (List Char))
    (score attempt : Nat) : Option BestMatch :=
  match url with
  | some u => if u ≠ [] ∧ bestScore st < score then some ⟨u, score, attempt⟩ else st
  | none => st

/-- Processing of one iTunes result: type and track-count validation, fuzzy
album and artist validation, scoring, and the update of the tracked best
match. -/
def processResult (albumName : List Char) (artistList : List (List Char))
    (releaseDate : List Char) (attempt : Nat) (st : Option BestMatch)
    (r : ITunesResult) : Except Unit (Option BestMatch) :=
  let resultRelease := r.releaseDate.take 10
  if r.collectionType ∉ ["Album".toList, "EP".toList, "Single".toList, ([] : List Char)] then
    .ok st
  else if r.trackCount = 0 then .ok st
  else
    let albumMatches := strings_match albumName r.collectionName
    let artistMatches := artistList.any fun a => strings_match a r.artistName
    if albumMatches && artistMatches then
      let s1 : Nat :=
        if normalize_string albumName = normalize_string r.collectionName then 100
        else if albumMatches then 50 else 0
      let s2 : Nat :=
        if artistList.any fun a => normalize_string a = normalize_string r.artistName then 100
        else if artistMatches then 50 else 0
      match dateProximityScore releaseDate resultRelease with
      | .error e => .error e
      | .ok s3 => .ok (recordBest st r.collectionViewUrl (s1 + s2 + s3) attempt)
    else .ok st

/-- Left fold of `processResult` over one response's result list. -/
def foldResults (albumName : List Char) (artistList : List (List Char))
    (releaseDate : List Char) (attempt : Nat) :
    Option BestMatch → List ITunesResult → Except Unit (Option BestMatch)
  | st, [] => .ok st
  | st, r :: rs =>
    match processResult albumName artistList releaseDate attempt st r with
    | .error e => .error e
    | .ok st1 => foldResults albumName artistList releaseDate attempt st1 rs

/-- The end-of-attempt check `if best_match and best_match_score >= 100`:
return the best match's URL when its score has reached 100. -/
def earlyCheck (st : Option BestMatch) : Except SearchExit (Option BestMatch) :=
  match st with
  | some b => if 100 ≤ b.score then .error (.found b.url) else .ok (some b)
  | none => .ok none

/-- One query attempt: make the request, process its results when
`resultCount > 0`, and return the best match's URL immediately when the best
score has reached 100. -/
def processQuery (env : List Char → Option ITunesResponse) (albumName : List Char)
    (artistList : List (List Char)) (releaseDate : List Char)
    (st : Option BestMatch) (attempt : Nat) (q : List Char) :
    Except SearchExit (Option BestMatch) :=
  match env q with
  | none => .error .exn
  | some data =>
    if 0 < data.resultCount then
      match foldResults albumName artistList releaseDate attempt st data.results with
      | .error _ => .error .exn
      | .ok st1 => earlyCheck st1
    else .ok st

/-- The loop over the search attempts, threading the tracked best match. -/
def runAttempts (env : List Char → Option ITunesResponse) (albumName : List Char)
    (artistList : List (List Char)) (releaseDate : List Char) :
    Option BestMatch → List (Nat × List Char) → Except SearchExit (Option BestMatch)
  | st, [] => .ok st
  | st, (att, q) :: qs =>
    match processQuery env albumName artistList releaseDate st att q with
    | .error e => .error e
    | .ok st1 => runAttempts env albumName artistList releaseDate st1 qs

/-- The three query strategies, in their order: title plus primary artist,
title alone, title plus all artists. -/
def searchAttempts (albumName artistName : List Char) : List (Nat × List Char) :=
  let primary := pyStrip ((splitIf (· == ',') artistName).headD [])
  [(1, albumName ++ [' '] ++ primary), (2, albumName), (3, albumName ++ [' '] ++ artistName)]

/-- The comma-split, stripped artist list validated against candidates. -/
def artistListOf (artistName : List Char) : List (List Char) :=
  (splitIf (· == ',') artistName).map pyStrip

/-- `MusicDataFetcher.search_itunes_for_album`: run the attempts; an early
strong match returns its URL, an exception returns `None`, and exhaustion
accepts the best match when its score is at least 75. -/
def search_itunes_for_album (env : List Char → Option ITunesResponse)
    (albumName artistName releaseDate : List Char) : Option (List Char) :=
  match runAttempts env albumName (artistListOf artistName) releaseDate none
      (searchAttempts albumName artistName) with
  | .error .exn => none
  | .error (.found u) => some u
  | .ok st =>
    match st with
    | some b => if 75 ≤ b.score then some b.url else none
    | none => none

/-- The same search with the final weak-acceptance branch replaced by
`None`; used to state that that branch never produces the result. -/
def search_itunes_strong_only (env : List Char → Option ITunesResponse)
    (albumName artistName releaseDate : List Char) : Option (List Char) :=
  match runAttempts env albumName (artistListOf artistName) releaseDate none
      (searchAttempts albumName artistName) with
  | .error .exn => none
  | .error (.found u) => some u
  | .ok _ => none

/-! ## `clean_for_apple_music_search`

Each `re.sub` of the cleaner is modelled as its own pattern function.  A
pattern matcher returns the length of the match starting at the given
position; `scanSub` scans left to right, deleting matches, like a global
`re.sub` with an empty replacement.  Patterns are matched case
insensitively, as `re.IGNORECASE` does. -/

/-- Match a lowercase pattern case-insensitively as a prefix, returning the
rest of the text. -/
def matchLower : List Char → List Char → Option (List Char)
  | [], rest => some rest
  | _ :: _, [] => none
  | p :: ps, c :: cs => if p == c.toLower then matchLower ps cs else none

/-- Index of the first case-insensitive occurrence of a lowercase pattern. -/
def findLower (pat : List Char) : List Char → Option Nat
  | [] => if (matchLower pat []).isSome then some 0 else none
  | c :: cs =>
    if (matchLower pat (c :: cs)).isSome then some 0
    else (findLower pat cs).map (· + 1)

/-- Scan the text left to right, deleting every match the pattern matcher
reports, and continuing after the deleted span (global `re.sub` with empty
replacement). -/
def scanSub (m : List Char → Option Nat) : List Char → List Char
  | [] => []
  | c :: cs =>
    match m (c :: cs) with
    | some n => scanSub m ((c :: cs).drop (max n 1))
    | none => c :: scanSub m cs
termination_by l => l.length
decreasing_by
  · have h1 : 1 ≤ max n 1 := le_max_right n 1
    simp only [List.length_drop, List.length_cons]
    omega
  · simp only [List.length_cons]
    exact Nat.lt_succ_self _

/-- Pattern `\(feat\..*?\)`: a parenthesized featuring clause, up to the
first closing parenthesis. -/
def parenFeatM (l : List Char) : Option Nat :=
  match l with
  | '(' :: rest =>
    match matchLower "feat.".toList rest with
    | some rest2 => (rest2.findIdx? (· == ')')).map fun k => 7 + k
    | none => none
  | _ => none

/-- Pattern `\[feat\..*?\]`. -/
def brackFeatM (l : List Char) : Option Nat :=
  match l with
  | '[' :: rest =>
    match matchLower "feat.".toList rest with
    | some rest2 => (rest2.findIdx? (· == ']')).map fun k => 7 + k
    | none => none
  | _ => none

/-- Pattern `feat\..*$`: from a featuring marker to the end. -/
def featEndM (l : List Char) : Option Nat :=
  if (matchLower "feat.".toList l).isSome then some l.length else none

/-- Pattern `featuring.*$`. -/
def featuringEndM (l : List Char) : Option Nat :=
  if (matchLower "featuring".toList l).isSome then some l.length else none

/-- Patterns `,?\s*W\.?\s*\d+` for a volume or part word `W`; `optDot` is
whether the pattern allows an abbreviating dot. -/
def wordNumM (word : List Char) (optDot : Bool) (l : List Char) : Option Nat :=
  let pre : Nat × List Char :=
    match l with
    | ',' :: t => (1, t)
    | _ => (0, l)
  let w := (pre.2.takeWhile Char.isWhitespace).length
  match matchLower word (pre.2.drop w) with
  | some rest =>
    let dotted : Nat × List Char :=
      if optDot then
        match rest with
        | '.' :: t => (1, t)
        | _ => (0, rest)
      else (0, rest)
    let w2 := (dotted.2.takeWhile Char.isWhitespace).length
    let dn := ((dotted.2.drop w2).takeWhile Char.isDigit).length
    if dn = 0 then none
    else some (pre.1 + w + word.length + dotted.1 + w2 + dn)
  | none => none

/-- Pattern `\(.*?edition\)`. -/
def parenEditionM (l : List Char) : Option Nat :=
  match l with
  | '(' :: rest => (findLower "edition)".toList rest).map fun k => 9 + k
  | _ => none

/-- Pattern `\[.*?edition\]`. -/
def brackEditionM (l : List Char) : Option Nat :=
  match l with
  | '[' :: rest => (findLower "edition]".toList rest).map fun k => 9 + k
  | _ => none

/-- Drop trailing whitespace only. -/
def stripEnd (l : List Char) : List Char :=
  (l.reverse.dropWhile Char.isWhitespace).reverse

/-- Strip a case-insensitive suffix, returning what precedes it. -/
def stripSuffixLower (suf : List Char) (l : List Char) : Option (List Char) :=
  if suf.length ≤ l.length then
    let k := l.length - suf.length
    match matchLower suf (l.drop k) with
    | some [] => some (l.take k)
    | _ => none
  else none

/-- The single-word alternatives of the edition-suffix pattern. -/
def editionAltWords : List (List Char) :=
  ["deluxe".toList, "expanded".toList, "special".toList, "limited".toList,
   "ultimate".toList, "extended".toList, "remaster".toList, "errtime".toList]

/-- Strip one alternative of
`(deluxe|expanded|special|limited|ultimate|extended|remaster|black\s+heart|errtime)`
from the end. -/
def editionAltSuffix (l : List Char) : Option (List Char) :=
  match editionAltWords.findSome? (fun w => stripSuffixLower w l) with
  | some r => some r
  | none =>
    match stripSuffixLower "heart".toList l with
    | some r =>
      let r1 := stripEnd r
      if r1.length < r.length then stripSuffixLower "black".toList r1 else none
    | none => none

/-- Pattern `\s+(…)\s+edition$`: drop a trailing edition marker. -/
def editionSuffixSub (l : List Char) : List Char :=
  match stripSuffixLower "edition".toList l with
  | none => l
  | some r1 =>
    let r2 := stripEnd r1
    if r2.length = r1.length then l
    else
      match editionAltSuffix r2 with
      | none => l
      | some r3 =>
        let r4 := stripEnd r3
        if r4.length = r3.length then l else r4

/-- Pattern `\s*-\s*.*?remix$` replaced by `' Remix'`. -/
def remixSub (l : List Char) : List Char :=
  if (stripSuffixLower "remix".toList l).isSome then
    match l.findIdx? (· == '-') with
    | some i =>
      if i + 1 ≤ l.length - 5 then stripEnd (l.take i) ++ " Remix".toList
      else l
    | none => l
  else l

/-- Pattern `,\s*$`: drop a trailing comma (and the whitespace after it). -/
def trailingCommaSub (l : List Char) : List Char :=
  let t := stripEnd l
  match t.getLast? with
  | some ',' => t.dropLast
  | _ => l

/-- `MusicDataFetcher.clean_for_apple_music_search`: the substitutions in
source order, then whitespace cleanup. -/
def clean_for_apple_music_search (s : List Char) : List Char :=
  let l := scanSub parenFeatM s
  let l := scanSub brackFeatM l
  let l := scanSub featEndM l
  let l := scanSub featuringEndM l
  let l := scanSub (wordNumM "vol".toList true) l
  let l := scanSub (wordNumM "volume".toList false) l
  let l := scanSub (wordNumM "pt".toList true) l
  let l := scanSub (wordNumM "part".toList false) l
  let l := scanSub parenEditionM l
  let l := scanSub brackEditionM l
  let l := editionSuffixSub l
  let l := remixSub l
  let l := trailingCommaSub l
  pyStrip (squeezeWs l)

/-! ## `get_album_details` -/

/-- UTF-8 bytes of a character, as values below 256. -/
def utf8Bytes (c : Char) : List Nat :=
  let n := c.toNat
  if n < 128 then [n]
  else if n < 2048 then [192 + n / 64, 128 + n % 64]
  else if n < 65536 then [224 + n / 4096, 128 + n / 64 % 64, 128 + n % 64]
  else [240 + n / 262144, 128 + n / 4096 % 64, 128 + n / 64 % 64, 128 + n % 64]

/-- Bytes `urllib.parse.quote` leaves unescaped with its default
`safe='/'`: letters, digits, `_.-~` and `/`. -/
def quoteSafeByte (n : Nat) : Bool :=
  (65 ≤ n && n ≤ 90) || (97 ≤ n && n ≤ 122) || (48 ≤ n && n ≤ 57) ||
  n == 95 || n == 46 || n == 45 || n == 126 || n == 47

/-- Upper-case hexadecimal digit. -/
def hexDigitUpper (n : Nat) : Char :=
  if n < 10 then Char.ofNat (48 + n) else Char.ofNat (55 + n)

/-- `urllib.parse.quote` with its defaults. -/
def urlQuote (s : List Char) : List Char :=
  s.flatMap fun c => (utf8Bytes c).flatMap fun b =>
    if quoteSafeByte b then [Char.ofNat b]
    else ['%', hexDigitUpper (b / 16), hexDigitUpper (b % 16)]

/-- The record `get_album_details` returns. -/
structure AlbumDetails where
  name : List Char
  artists : List Char
  release_date : List Char
  image : List Char
  spotify_url : List Char
  apple_music_url : List Char
  total_tracks : Nat
  album_type : List Char
deriving Repr, DecidableEq

/-- The comma-joined artist display string `', '.join(...)`. -/
def joinedArtists (album : Album) : List Char :=
  joinWith ", ".toList (album.artists.map Artist.name)

/-- The constructed fallback search URL: cleaned title plus primary artist
against the Apple Music search page. -/
def fallbackSearchUrl (album : Album) : List Char :=
  let artists := joinedArtists album
  let primary := pyStrip ((splitIf (· == ',') artists).headD [])
  let cleanName := clean_for_apple_music_search album.name
  "https://music.apple.com/us/search?term=".toList ++ urlQuote (cleanName ++ [' '] ++ primary)

/-- `MusicDataFetcher.get_album_details`: resolve through the iTunes search
and fall back to the constructed search URL when that yields nothing
truthy. -/
def get_album_details (env : List Char → Option ITunesResponse) (album : Album) :
    AlbumDetails :=
  let artists := joinedArtists album
  let matched := search_itunes_for_album env album.name artists album.release_date
  let appleUrl := if truthy matched then matched.getD [] else fallbackSearchUrl album
  { name := album.name
    artists := artists
    release_date := album.release_date
    image := album.images.headD []
    spotify_url := album.spotify_url
    apple_music_url := appleUrl
    total_tracks := album.total_tracks.getD 0
    album_type := album.album_type.getD "album".toList }

/-! ## Concrete data used by witnesses -/

def wTagsEmpty : List Char → List (List Char) := fun _ => []

def wTagsPop : List Char → List (List Char) := fun _ => ["pop".toList]

def wNow : PyDateTime := ⟨⟨2026, 10, 12⟩, 0⟩

def wNowDec : PyDateTime := ⟨⟨2026, 12, 1⟩, 0⟩

def wArtist : Artist := ⟨"ar1".toList, "Artist One".toList⟩

def wAlbumRecent : Album :=
  ⟨some "a1".toList, "Fresh Album".toList, [wArtist], "2026-10-01".toList, [],
   "spotify1".toList, some 10, some "album".toList, some 5⟩

def wAlbumJan : Album :=
  ⟨some "a2".toList, "January Album".toList, [wArtist], "2026-01-01".toList, [],
   "spotify2".toList, some 10, some "album".toList, some 50⟩

def wDup1 : Album :=
  ⟨some "id1".toList, "First".toList, [wArtist], "2026-10-01".toList, [],
   "s1".toList, some 9, none, some 1⟩

def wDup2 : Album :=
  ⟨some "id1".toList, "Second".toList, [wArtist], "2026-10-01".toList, [],
   "s2".toList, some 9, none, some 9⟩

def wOther : Album :=
  ⟨some "id2".toList, "Other".toList, [wArtist], "2026-10-01".toList, [],
   "s3".toList, some 9, none, some 2⟩

def wEnvNoItunes : List Char → Option ITunesResponse := fun _ => none

def wItunesHit : ITunesResult :=
  ⟨"alpha x".toList, "beta".toList, "Album".toList, 10, [], some "u1".toList⟩

def wItunesExact : ITunesResult :=
  ⟨"alpha".toList, "beta".toList, "Album".toList, 10, "2026-01-01".toList, some "u2".toList⟩

def wEnvSearch : List Char → Option ITunesResponse := fun q =>
  if q = "alpha beta".toList then some ⟨1, [wItunesHit]⟩
  else if q = "alpha".toList then some ⟨1, [wItunesExact]⟩
  else some ⟨0, []⟩

/-- The invariant of the tracked best match: whenever one is recorded, its
score is at least 100 (album and artist validation each contribute at least
50) and its URL is non-empty (only truthy URLs are recorded). -/
def goodState (st : Option BestMatch) : Prop :=
  ∀ b, st = some b → 100 ≤ b.score ∧ b.url ≠ []

/-- The first of the three query strategies: title plus primary artist. -/
def firstQuery (albumName artistName : List Char) : List Char :=
  albumName ++ [' '] ++ pyStrip ((splitIf (· == ',') artistName).headD [])

/-! ## Theorems -/

theorem containsCh_nil (l : List Char) : containsCh [] l = true := by
  cases l <;> simp [containsCh, beginsWith]

/-- C7: `strings_match(a, b, threshold)` returns true iff the normalized
strings are equal, or one normalized string is a substring of the other, or
both word sets are non-empty and the overlap count over the smaller set size
reaches the threshold. -/
theorem strings_match_characterization (a b : List Char) (t : ℚ) :
    strings_match a b t = true ↔
      (normalize_string a = normalize_string b
        ∨ (containsCh (normalize_string a) (normalize_string b) = true
            ∨ containsCh (normalize_string b) (normalize_string a) = true)
        ∨ (wordSet (normalize_string a) ≠ ∅ ∧ wordSet (normalize_string b) ≠ ∅
            ∧ t ≤ ((wordSet (normalize_string a) ∩ wordSet (normalize_string b)).card : ℚ)
                / ((min (wordSet (normalize_string a)).card (wordSet (normalize_string b)).card : Nat) : ℚ))) := by
  unfold strings_match
  by_cases h1 : normalize_string a = normalize_string b
  · simp [h1]
  · simp only [if_neg h1]
    by_cases h2 : (containsCh (normalize_string a) (normalize_string b)
        || containsCh (normalize_string b) (normalize_string a)) = true
    · simp only [if_pos h2]
      simp only [Bool.or_eq_true] at h2
      simp [h1, h2]
    · simp only [if_neg h2]
      simp only [Bool.or_eq_true] at h2
      push_neg at h2
      by_cases h3 : wordSet (normalize_string a) = ∅ ∨ wordSet (normalize_string b) = ∅
      · simp only [if_pos h3]
        constructor
        · intro hfalse
          exact absurd hfalse (by simp)
        · intro hc
          rcases hc with hc | hc | hc
          · exact absurd hc h1
          · rcases hc with hc | hc
            · exact absurd hc (by simp [h2.1])
            · exact absurd hc (by simp [h2.2])
          · rcases h3 with h3 | h3
            · exact absurd h3 hc.1
            · exact absurd h3 hc.2.1
      · simp only [if_neg h3]
        push_neg at h3
        have hpos : 0 < min (wordSet (normalize_string a)).card (wordSet (normalize_string b)).card := by
          simp only [lt_min_iff]
          exact ⟨Finset.card_pos.mpr (Finset.nonempty_iff_ne_empty.mpr h3.1),
                 Finset.card_pos.mpr (Finset.nonempty_iff_ne_empty.mpr h3.2)⟩
        simp only [if_pos hpos, decide_eq_true_eq]
        constructor
        · intro hle
          exact Or.inr (Or.inr ⟨h3.1, h3.2, hle⟩)
        · intro hc
          rcases hc with hc | hc | hc
          · exact absurd hc h1
          · rcases hc with hc | hc
            · exact absurd hc (by simp [h2.1])
            · exact absurd hc (by simp [h2.2])
          · exact hc.2.2

/-- C8 counterexample: the code keeps underscores (`\w` includes them), while
the claimed normalizer, which removes every non-alphanumeric non-space
character, would delete them. -/
theorem normalize_underscore_counterexample :
    normalize_string "a_b".toList = "a_b".toList ∧
    claimNormalize "a_b".toList = "ab".toList ∧
    normalize_string "a_b".toList ≠ claimNormalize "a_b".toList := by
  refine ⟨by decide, by decide, by decide⟩

/-- C8 as amended: `normalize_string` lower-cases, replaces hyphens with
spaces, removes every character that is neither alphanumeric nor underscore
nor whitespace, collapses whitespace runs to one space and trims the ends;
the empty input yields the empty output. -/
theorem normalize_amended_characterization (s : List Char) :
    normalize_string s = amendedNormalize s ∧ normalize_string [] = [] := by
  constructor
  · simp only [normalize_string, amendedNormalize, pyWordChar, Bool.or_assoc]
  · rfl

/-- C10: whenever the first string normalizes to the empty string, the
containment step fires (the empty string is a substring of everything), so the
match succeeds for every second string and threshold. -/
theorem empty_normalized_always_matches (a b : List Char) (t : ℚ)
    (h : normalize_string a = []) : strings_match a b t = true := by
  unfold strings_match
  rw [h]
  by_cases h2 : ([] : List Char) = normalize_string b
  · simp [h2]
  · simp [h2, containsCh_nil]

/-- C10 witness: a punctuation-only name matches anything. -/
theorem empty_normalized_always_matches_witness :
    strings_match "!?".toList "rock".toList (7/10) = true :=
  empty_normalized_always_matches "!?".toList "rock".toList (7/10) (by decide)

/-! ### Ranking lemmas -/

theorem mem_insertPopDesc {a x : Album} {l : List Album} :
    x ∈ insertPopDesc a l ↔ x = a ∨ x ∈ l := by
  induction l with
  | nil => simp [insertPopDesc]
  | cons b bs ih =>
    by_cases h : popOf b ≤ popOf a
    · simp only [insertPopDesc, if_pos h, List.mem_cons]
    · simp only [insertPopDesc, if_neg h, List.mem_cons, ih]
      tauto

theorem insertPopDesc_pairwise (a : Album) (l : List Album)
    (h : l.Pairwise fun x y => popOf y ≤ popOf x) :
    (insertPopDesc a l).Pairwise fun x y => popOf y ≤ popOf x := by
  induction l with
  | nil => simp [insertPopDesc]
  | cons b bs ih =>
    have hb := (List.pairwise_cons.mp h).1
    have hbs := (List.pairwise_cons.mp h).2
    by_cases hba : popOf b ≤ popOf a
    · simp only [insertPopDesc, if_pos hba]
      refine List.pairwise_cons.mpr ⟨?_, h⟩
      intro x hx
      rcases List.mem_cons.mp hx with hx1 | hx1
      · subst hx1
        exact hba
      · exact le_trans (hb x hx1) hba
    · simp only [insertPopDesc, if_neg hba]
      refine List.pairwise_cons.mpr ⟨?_, ih hbs⟩
      intro x hx
      rcases mem_insertPopDesc.mp hx with hx1 | hx1
      · subst hx1
        exact le_of_not_le hba
      · exact hb x hx1

theorem sortPopDesc_pairwise (l : List Album) :
    (sortPopDesc l).Pairwise fun x y => popOf y ≤ popOf x := by
  induction l with
  | nil => exact List.Pairwise.nil
  | cons a as ih => exact insertPopDesc_pairwise a (sortPopDesc as) ih

theorem insertPopDesc_perm (a : Album) (l : List Album) :
    List.Perm (insertPopDesc a l) (a :: l) := by
  induction l with
  | nil => exact List.Perm.refl _
  | cons b bs ih =>
    by_cases h : popOf b ≤ popOf a
    · simp only [insertPopDesc, if_pos h]
      exact List.Perm.refl _
    · simp only [insertPopDesc, if_neg h]
      exact (List.Perm.cons b ih).trans (List.Perm.swap a b bs)

theorem sortPopDesc_perm (l : List Album) : List.Perm (sortPopDesc l) l := by
  induction l with
  | nil => exact List.Perm.refl _
  | cons a as ih => exact (insertPopDesc_perm a (sortPopDesc as)).trans (List.Perm.cons a ih)

theorem filter_insertPopDesc (a : Album) (l : List Album) (p : Nat) :
    (insertPopDesc a l).filter (fun x => popOf x == p)
      = (a :: l).filter (fun x => popOf x == p) := by
  induction l with
  | nil => rfl
  | cons b bs ih =>
    by_cases hba : popOf b ≤ popOf a
    · simp only [insertPopDesc, if_pos hba]
    · have hlt : popOf a < popOf b := lt_of_not_le hba
      simp only [insertPopDesc, if_neg hba, List.filter_cons, ih]
      by_cases hbp : popOf b = p
      · have hap : popOf a ≠ p := by omega
        simp [beq_iff_eq, hbp, hap]
      · simp [beq_iff_eq, hbp]

theorem sortPopDesc_stable (l : List Album) (p : Nat) :
    (sortPopDesc l).filter (fun x => popOf x == p) = l.filter (fun x => popOf x == p) := by
  induction l with
  | nil => rfl
  | cons a as ih =>
    calc (insertPopDesc a (sortPopDesc as)).filter (fun x => popOf x == p)
        = (a :: sortPopDesc as).filter (fun x => popOf x == p) := filter_insertPopDesc ..
      _ = (a :: as).filter (fun x => popOf x == p) := by
          simp only [List.filter_cons, ih]

/-! ### Deduplication lemmas -/

theorem dedupByIdAux_mem_props (seen : List (List Char)) (l : List Album) :
    ∀ b ∈ dedupByIdAux seen l, ∃ s, b.id = some s ∧ s ≠ [] ∧ s ∉ seen := by
  induction l generalizing seen with
  | nil => intro b hb; exact absurd hb (List.not_mem_nil b)
  | cons a as ih =>
    intro b hb
    cases ha : a.id with
    | none =>
      simp only [dedupByIdAux, ha] at hb
      exact ih seen b hb
    | some i =>
      simp only [dedupByIdAux, ha] at hb
      by_cases hc : i ≠ [] ∧ i ∉ seen
      · rw [if_pos hc] at hb
        rcases List.mem_cons.mp hb with hb1 | hb1
        · subst hb1
          exact ⟨i, ha, hc.1, hc.2⟩
        · rcases ih (i :: seen) b hb1 with ⟨s, hs, hs1, hs2⟩
          exact ⟨s, hs, hs1, fun hmem => hs2 (List.mem_cons_of_mem i hmem)⟩
      · rw [if_neg hc] at hb
        exact ih seen b hb

theorem dedupByIdAux_sublist (seen : List (List Char)) (l : List Album) :
    (dedupByIdAux seen l).Sublist l := by
  induction l generalizing seen with
  | nil => exact List.Sublist.refl _
  | cons a as ih =>
    cases ha : a.id with
    | none =>
      simp only [dedupByIdAux, ha]
      exact (ih seen).cons a
    | some i =>
      simp only [dedupByIdAux, ha]
      by_cases hc : i ≠ [] ∧ i ∉ seen
      · rw [if_pos hc]
        exact (ih (i :: seen)).cons₂ a
      · rw [if_neg hc]
        exact (ih seen).cons a

theorem dedupByIdAux_nodup (seen : List (List Char)) (l : List Album) :
    ((dedupByIdAux seen l).map Album.id).Nodup := by
  induction l generalizing seen with
  | nil => exact List.nodup_nil
  | cons a as ih =>
    cases ha : a.id with
    | none =>
      simp only [dedupByIdAux, ha]
      exact ih seen
    | some i =>
      simp only [dedupByIdAux, ha]
      by_cases hc : i ≠ [] ∧ i ∉ seen
      · rw [if_pos hc]
        refine List.nodup_cons.mpr ⟨?_, ih (i :: seen)⟩
        intro hmem
        rcases List.mem_map.mp hmem with ⟨b, hb, hbid⟩
        rcases dedupByIdAux_mem_props (i :: seen) as b hb with ⟨s, hs, _, hs2⟩
        rw [ha, hs] at hbid
        have hsi : s = i := Option.some.inj hbid
        exact hs2 (hsi ▸ List.mem_cons_self i seen)
      · rw [if_neg hc]
        exact ih seen

theorem dedupByIdAux_coverage (seen : List (List Char)) (l : List Album)
    (h : ∀ a ∈ l, ∃ s, a.id = some s ∧ s ≠ []) :
    ∀ a ∈ l, (∃ b ∈ dedupByIdAux seen l, b.id = a.id)
      ∨ (∃ s, a.id = some s ∧ s ∈ seen) := by
  induction l generalizing seen with
  | nil => intro a ha; exact absurd ha (List.not_mem_nil a)
  | cons x xs ih =>
    intro a ha
    rcases h x (List.mem_cons_self x xs) with ⟨i, hxi, hi⟩
    rcases List.mem_cons.mp ha with ha1 | ha1
    · subst ha1
      by_cases hmem : i ∈ seen
      · right
        exact ⟨i, hxi, hmem⟩
      · left
        simp only [dedupByIdAux, hxi]
        rw [if_pos ⟨hi, hmem⟩]
        exact ⟨a, List.mem_cons_self a _, hxi⟩
    · have hxs : ∀ b ∈ xs, ∃ s, b.id = some s ∧ s ≠ [] :=
        fun b hb => h b (List.mem_cons_of_mem x hb)
      by_cases hmem : i ∈ seen
      · have hneg : ¬ (i ≠ [] ∧ i ∉ seen) := by tauto
        rcases ih seen hxs a ha1 with hc | hc
        · rcases hc with ⟨b, hb, hbid⟩
          left
          refine ⟨b, ?_, hbid⟩
          simp only [dedupByIdAux, hxi]
          rw [if_neg hneg]
          exact hb
        · right
          exact hc
      · rcases ih (i :: seen) hxs a ha1 with hc | hc
        · rcases hc with ⟨b, hb, hbid⟩
          left
          refine ⟨b, ?_, hbid⟩
          simp only [dedupByIdAux, hxi]
          rw [if_pos ⟨hi, hmem⟩]
          exact List.mem_cons_of_mem x hb
        · rcases hc with ⟨s, hs, hsmem⟩
          rcases List.mem_cons.mp hsmem with hs1 | hs1
          · left
            refine ⟨x, ?_, ?_⟩
            · simp only [dedupByIdAux, hxi]
              rw [if_pos ⟨hi, hmem⟩]
              exact List.mem_cons_self x _
            · rw [hxi, hs, hs1]
          · right
            exact ⟨s, hs, hs1⟩

theorem dedupByIdAux_first (seen : List (List Char)) (l : List Album) :
    ∀ b ∈ dedupByIdAux seen l, l.find? (fun x => x.id == b.id) = some b := by
  induction l generalizing seen with
  | nil => intro b hb; exact absurd hb (List.not_mem_nil b)
  | cons a as ih =>
    intro b hb
    cases ha : a.id with
    | none =>
      simp only [dedupByIdAux, ha] at hb
      rcases dedupByIdAux_mem_props seen as b hb with ⟨s, hs, _, _⟩
      have hne : (a.id == b.id) = false := by
        rw [ha, hs]
        rfl
      rw [List.find?_cons_of_neg _ (by simp [hne])]
      exact ih seen b hb
    | some i =>
      simp only [dedupByIdAux, ha] at hb
      by_cases hc : i ≠ [] ∧ i ∉ seen
      · rw [if_pos hc] at hb
        rcases List.mem_cons.mp hb with hb1 | hb1
        · subst hb1
          exact List.find?_cons_of_pos _ (by simp)
        · rcases dedupByIdAux_mem_props (i :: seen) as b hb1 with ⟨s, hs, _, hs2⟩
          have hsi : s ≠ i := fun he => hs2 (he ▸ List.mem_cons_self i seen)
          have hne : (a.id == b.id) = false := by
            rw [ha, hs]
            simp [hsi.symm]
          rw [List.find?_cons_of_neg _ (by simp [hne])]
          exact ih (i :: seen) b hb1
      · rw [if_neg hc] at hb
        rcases dedupByIdAux_mem_props seen as b hb with ⟨s, hs, hs1, hs2⟩
        have hsi : s ≠ i := by
          intro he
          subst he
          exact hc ⟨hs1, hs2⟩
        have hne : (a.id == b.id) = false := by
          rw [ha, hs]
          simp [hsi.symm]
        rw [List.find?_cons_of_neg _ (by simp [hne])]
        exact ih seen b hb

/-- C6: the deduplicating merge over the concatenated input lists keeps the
first occurrence of each identifier: output identifiers are pairwise distinct,
every input identifier appears in the output, the output is a sublist of the
concatenated input (first-seen order), and each output element is the first
input element bearing its identifier.  Identifiers are assumed present and
non-empty, as the data model guarantees.  The merge is a pure function of the
concatenated lists, so it is deterministic in the input order. -/
theorem merge_dedup_first_seen (ls : List (List Album))
    (h : ∀ a ∈ ls.flatten, ∃ s, a.id = some s ∧ s ≠ []) :
    ((dedupById ls.flatten).map Album.id).Nodup
    ∧ (∀ a ∈ ls.flatten, ∃ b ∈ dedupById ls.flatten, b.id = a.id)
    ∧ (dedupById ls.flatten).Sublist ls.flatten
    ∧ (∀ b ∈ dedupById ls.flatten, ls.flatten.find? (fun x => x.id == b.id) = some b) := by
  refine ⟨dedupByIdAux_nodup [] _, ?_, dedupByIdAux_sublist [] _, dedupByIdAux_first [] _⟩
  intro a ha
  rcases dedupByIdAux_coverage [] ls.flatten h a ha with hc | hc
  · exact hc
  · rcases hc with ⟨s, _, hmem⟩
    exact absurd hmem (List.not_mem_nil s)

/-- C6 witness: two input lists sharing the identifier `id1`. -/
theorem merge_dedup_first_seen_witness :
    ((dedupById ([[wDup1], [wDup2, wOther]] : List (List Album)).flatten).map Album.id).Nodup
    ∧ (∀ a ∈ ([[wDup1], [wDup2, wOther]] : List (List Album)).flatten,
        ∃ b ∈ dedupById ([[wDup1], [wDup2, wOther]] : List (List Album)).flatten, b.id = a.id)
    ∧ (dedupById ([[wDup1], [wDup2, wOther]] : List (List Album)).flatten).Sublist
        ([[wDup1], [wDup2, wOther]] : List (List Album)).flatten
    ∧ (∀ b ∈ dedupById ([[wDup1], [wDup2, wOther]] : List (List Album)).flatten,
        ([[wDup1], [wDup2, wOther]] : List (List Album)).flatten.find?
          (fun x => x.id == b.id) = some b) :=
  merge_dedup_first_seen [[wDup1], [wDup2, wOther]] (by decide)

/-! ### Filter pipeline lemmas -/

theorem fbgarKeep_spec {artistGenres : List Char → List (List Char)} {now : PyDateTime}
    {genreKeywords : List Char} {days : Nat} {trustSource : Bool} {minPopularity : Nat}
    {a : Album}
    (h : fbgarKeep artistGenres now genreKeywords days trustSource minPopularity a = true) :
    minPopularity ≤ popOf a
    ∧ ∃ d, parseReleaseDate a.release_date = some d
        ∧ (if trustSource then d.y = now.date.y
           else dtTicks now - days * 86400 ≤ dateTicks d) := by
  cases hp : parseReleaseDate a.release_date with
  | none =>
    simp only [fbgarKeep, hp] at h
    exact absurd h (by simp)
  | some d =>
    simp only [fbgarKeep, hp] at h
    by_cases h1 : popOf a < minPopularity
    · rw [if_pos h1] at h
      exact absurd h (by simp)
    · rw [if_neg h1] at h
      refine ⟨le_of_not_lt h1, d, rfl, ?_⟩
      cases ht : trustSource with
      | true =>
        rw [ht] at h
        simp only [if_true] at h ⊢
        exact eq_of_beq h
      | false =>
        rw [ht] at h
        simp only [Bool.false_eq_true, if_false] at h ⊢
        by_cases h2 : dateTicks d < dtTicks now - days * 86400
        · rw [if_pos h2] at h
          exact absurd h (by simp)
        · exact le_of_not_lt h2

/-- C3 as amended: every output item of `filter_by_genre_and_recency` has
popularity at least the minimum and a parsed release date that passes the
recency stage — date at least `now - window_days` when the trust flag is
unset, but only release year equal to the current year when it is set — and
the output is sorted by popularity non-increasingly by a stable sort (the
sorted survivors restricted to any popularity value keep their input
order). -/
theorem filter_output_recent_popular_sorted (artistGenres : List Char → List (List Char))
    (now : PyDateTime) (albums : List Album) (genreKeywords : List Char)
    (days : Nat) (trustSource : Bool) (minPopularity : Nat) :
    (∀ a ∈ filter_by_genre_and_recency artistGenres now albums genreKeywords days
        trustSource minPopularity,
      minPopularity ≤ popOf a
      ∧ ∃ d, parseReleaseDate a.release_date = some d
          ∧ (if trustSource then d.y = now.date.y
             else dtTicks now - days * 86400 ≤ dateTicks d))
    ∧ (filter_by_genre_and_recency artistGenres now albums genreKeywords days
        trustSource minPopularity).Pairwise (fun x y => popOf y ≤ popOf x)
    ∧ (∀ p, (sortPopDesc (albums.filter
          (fbgarKeep artistGenres now genreKeywords days trustSource minPopularity))).filter
            (fun x => popOf x == p)
        = (albums.filter
            (fbgarKeep artistGenres now genreKeywords days trustSource minPopularity)).filter
            (fun x => popOf x == p)) := by
  refine ⟨?_, ?_, fun p => sortPopDesc_stable _ p⟩
  · intro a ha
    have ha1 : a ∈ sortPopDesc (albums.filter
        (fbgarKeep artistGenres now genreKeywords days trustSource minPopularity)) :=
      List.take_subset 10 _ ha
    have ha2 : a ∈ albums.filter
        (fbgarKeep artistGenres now genreKeywords days trustSource minPopularity) :=
      (sortPopDesc_perm _).mem_iff.mp ha1
    exact fbgarKeep_spec (List.of_mem_filter ha2)
  · exact (sortPopDesc_pairwise _).sublist (List.take_sublist 10 _)

/-- C3 witness: a fresh album passes and its parsed date is within the
window when the trust flag is unset. -/
theorem filter_output_recent_popular_sorted_witness :
    0 ≤ popOf wAlbumRecent
    ∧ ∃ d, parseReleaseDate wAlbumRecent.release_date = some d
        ∧ (if false then d.y = wNow.date.y
           else dtTicks wNow - 30 * 86400 ≤ dateTicks d) :=
  (filter_output_recent_popular_sorted wTagsEmpty wNow [wAlbumRecent] "rock".toList
    30 false 0).1 wAlbumRecent (by decide)

/-- C3 counterexample: with the trust flag set the recency stage only checks
the release year, so a January album is kept by a 30-day window in December
even though its parsed date is before `now - 30 days`. -/
theorem filter_trust_branch_ignores_window :
    filter_by_genre_and_recency wTagsEmpty wNowDec [wAlbumJan] "rock".toList 30 true 0
      = [wAlbumJan]
    ∧ parseReleaseDate wAlbumJan.release_date = some ⟨2026, 1, 1⟩
    ∧ dateTicks ⟨2026, 1, 1⟩ < dtTicks wNowDec - 30 * 86400 :=
  ⟨by decide, by decide, by decide⟩

/-- C4 as amended: `get_genre_releases` really does return the whole
filtered, ranked set — its output is a permutation of all surviving merged
candidates, with equal length — but `filter_by_genre_and_recency` truncates
its ranked output to the top 10. -/
theorem genre_releases_no_cap (newReleases : List Album)
    (searchByTerm : List Char → List Album)
    (artistGenres : List Char → List (List Char)) (now : PyDateTime)
    (genreKeywords : List Char) (minPopularity : Nat) :
    List.Perm
      (get_genre_releases newReleases searchByTerm artistGenres now genreKeywords
        minPopularity)
      ((dedupById (newReleases ++ (searchTermsFor genreKeywords).flatMap searchByTerm)).filter
        (genreKeep artistGenres now (commaKeywords genreKeywords) minPopularity))
    ∧ (get_genre_releases newReleases searchByTerm artistGenres now genreKeywords
        minPopularity).length
      = ((dedupById (newReleases ++ (searchTermsFor genreKeywords).flatMap searchByTerm)).filter
          (genreKeep artistGenres now (commaKeywords genreKeywords) minPopularity)).length :=
  ⟨sortPopDesc_perm _, (sortPopDesc_perm _).length_eq⟩

/-- C4 counterexample: eleven albums survive `filter_by_genre_and_recency`
but only ten are returned (`filtered[:10]`). -/
theorem filter_caps_at_ten :
    ((List.replicate 11 wAlbumJan).filter
        (fbgarKeep wTagsEmpty wNowDec "rock".toList 30 true 0)).length = 11
    ∧ (filter_by_genre_and_recency wTagsEmpty wNowDec (List.replicate 11 wAlbumJan)
        "rock".toList 30 true 0).length = 10 :=
  ⟨by decide, by decide⟩

/-- C5: in the genre-verification stage with the trust flag unset, an album
passing the earlier stages whose primary artist has no genre tags is kept by
default (for any keywords), and one whose artist has tags `["pop"]` with
keyword `"rock"` is dropped; stated for the per-album decision and for the
pipeline output on that album. -/
theorem genre_stage_default_include_exclude
    (tagsEmpty tagsPop : List Char → List (List Char)) (now : PyDateTime) (a : Album)
    (d : PyDate) (ar : Artist) (rest : List Artist) (kws : List Char)
    (days minPop : Nat)
    (hart : a.artists = ar :: rest)
    (hd : parseReleaseDate a.release_date = some d)
    (hpop : minPop ≤ popOf a)
    (hrec : ¬ (dateTicks d < dtTicks now - days * 86400))
    (hE : tagsEmpty ar.id = [])
    (hP : tagsPop ar.id = ["pop".toList]) :
    fbgarKeep tagsEmpty now kws days false minPop a = true
    ∧ fbgarKeep tagsPop now "rock".toList days false minPop a = false
    ∧ filter_by_genre_and_recency tagsEmpty now [a] kws days false minPop = [a]
    ∧ filter_by_genre_and_recency tagsPop now [a] "rock".toList days false minPop = [] := by
  have hkE : fbgarKeep tagsEmpty now kws days false minPop a = true := by
    simp only [fbgarKeep, hd, hart, hE]
    rw [if_neg (Nat.not_lt.mpr hpop)]
    simp only [Bool.false_eq_true, if_false]
    rw [if_neg hrec]
    simp
  have hkP : fbgarKeep tagsPop now "rock".toList days false minPop a = false := by
    simp only [fbgarKeep, hd, hart, hP]
    rw [if_neg (Nat.not_lt.mpr hpop)]
    simp only [Bool.false_eq_true, if_false]
    rw [if_neg hrec]
    simp only [ne_eq, reduceCtorEq, not_false_eq_true, if_true]
    decide
  refine ⟨hkE, hkP, ?_, ?_⟩
  · simp only [filter_by_genre_and_recency, List.filter_cons, hkE, if_true,
      List.filter_nil, sortPopDesc, insertPopDesc]
    rfl
  · simp only [filter_by_genre_and_recency, List.filter_cons, hkP,
      Bool.false_eq_true, if_false, List.filter_nil, sortPopDesc]
    rfl

/-- C5 witness: a concrete fresh album under the two tag environments. -/
theorem genre_stage_default_include_exclude_witness :
    fbgarKeep wTagsEmpty wNow "jazz".toList 30 false 0 wAlbumRecent = true
    ∧ fbgarKeep wTagsPop wNow "rock".toList 30 false 0 wAlbumRecent = false
    ∧ filter_by_genre_and_recency wTagsEmpty wNow [wAlbumRecent] "jazz".toList 30 false 0
        = [wAlbumRecent]
    ∧ filter_by_genre_and_recency wTagsPop wNow [wAlbumRecent] "rock".toList 30 false 0
        = [] :=
  genre_stage_default_include_exclude wTagsEmpty wTagsPop wNow wAlbumRecent
    ⟨2026, 10, 1⟩ wArtist [] "jazz".toList 30 0 (by decide) (by decide) (by decide)
    (by decide) (by decide) (by decide)

/-! ### Resolver lemmas -/

theorem recordBest_good {st : Option BestMatch} {url : Option (List Char)}
    {score attempt : Nat} (hg : goodState st) (hscore : 100 ≤ score) :
    goodState (recordBest st url score attempt) := by
  cases url with
  | none => exact hg
  | some u =>
    simp only [recordBest]
    by_cases hc : u ≠ [] ∧ bestScore st < score
    · rw [if_pos hc]
      intro b hb
      have hb1 := Option.some.inj hb
      subst hb1
      exact ⟨hscore, hc.1⟩
    · rw [if_neg hc]
      exact hg

theorem processResult_good {albumName : List Char} {artistList : List (List Char)}
    {releaseDate : List Char} {attempt : Nat} {st st1 : Option BestMatch} {r : ITunesResult}
    (hg : goodState st)
    (h : processResult albumName artistList releaseDate attempt st r = .ok st1) :
    goodState st1 := by
  simp only [processResult] at h
  split at h
  · cases h
    exact hg
  · split at h
    · cases h
      exact hg
    · split at h
      case isTrue hmatches =>
        simp only [Bool.and_eq_true] at hmatches
        rcases hmatches with ⟨hAlb, hArt⟩
        split at h
        · cases h
        case h_2 s3 hds =>
          cases h
          have hs1 : 50 ≤ (if normalize_string albumName
              = normalize_string r.collectionName then (100 : Nat)
            else if strings_match albumName r.collectionName then 50 else 0) := by
            split
            · omega
            · simp [hAlb]
          have hs2 : 50 ≤ (if artistList.any fun a =>
                normalize_string a = normalize_string r.artistName then (100 : Nat)
            else if artistList.any fun a => strings_match a r.artistName then 50 else 0) := by
            split
            · omega
            · simp [hArt]
          exact recordBest_good hg (by omega)
      case isFalse hmatches =>
        cases h
        exact hg

theorem foldResults_good {albumName : List Char} {artistList : List (List Char)}
    {releaseDate : List Char} {attempt : Nat} :
    ∀ (rs : List ITunesResult) (st st1 : Option BestMatch), goodState st →
      foldResults albumName artistList releaseDate attempt st rs = .ok st1 →
      goodState st1 := by
  intro rs
  induction rs with
  | nil =>
    intro st st1 hg h
    simp only [foldResults] at h
    cases h
    exact hg
  | cons r rs ih =>
    intro st st1 hg h
    simp only [foldResults] at h
    cases hpr : processResult albumName artistList releaseDate attempt st r with
    | error e =>
      rw [hpr] at h
      cases h
    | ok st2 =>
      rw [hpr] at h
      exact ih st2 st1 (processResult_good hg hpr) h

theorem processQuery_ok {env : List Char → Option ITunesResponse} {albumName : List Char}
    {artistList : List (List Char)} {releaseDate : List Char} {st st1 : Option BestMatch}
    {attempt : Nat} {q : List Char}
    (hg : goodState st)
    (h : processQuery env albumName artistList releaseDate st attempt q = .ok st1) :
    st1 = st ∨ st1 = none := by
  cases he : env q with
  | none =>
    simp only [processQuery, he] at h
    cases h
  | some data =>
    simp only [processQuery, he] at h
    by_cases hrc : 0 < data.resultCount
    · rw [if_pos hrc] at h
      cases hf : foldResults albumName artistList releaseDate attempt st data.results with
      | error e =>
        simp only [hf] at h
        cases h
      | ok st2 =>
        simp only [hf] at h
        cases st2 with
        | none =>
          simp only [earlyCheck] at h
          cases h
          right
          rfl
        | some b =>
          have hb := (foldResults_good data.results st (some b) hg hf) b rfl
          simp only [earlyCheck] at h
          rw [if_pos hb.1] at h
          cases h
    · rw [if_neg hrc] at h
      cases h
      left
      rfl

theorem processQuery_found {env : List Char → Option ITunesResponse} {albumName : List Char}
    {artistList : List (List Char)} {releaseDate : List Char} {st : Option BestMatch}
    {attempt : Nat} {q : List Char} {u : List Char}
    (hg : goodState st)
    (h : processQuery env albumName artistList releaseDate st attempt q
      = .error (.found u)) : u ≠ [] := by
  cases he : env q with
  | none =>
    simp only [processQuery, he] at h
    cases h
  | some data =>
    simp only [processQuery, he] at h
    by_cases hrc : 0 < data.resultCount
    · rw [if_pos hrc] at h
      cases hf : foldResults albumName artistList releaseDate attempt st data.results with
      | error e =>
        simp only [hf] at h
        cases h
      | ok st2 =>
        simp only [hf] at h
        cases st2 with
        | none =>
          simp only [earlyCheck] at h
          cases h
        | some b =>
          have hb := (foldResults_good data.results st (some b) hg hf) b rfl
          simp only [earlyCheck] at h
          rw [if_pos hb.1] at h
          have hu : u = b.url := by
            exact SearchExit.found.inj (Except.error.inj h.symm)
          rw [hu]
          exact hb.2
    · rw [if_neg hrc] at h
      cases h

theorem goodState_none : goodState none :=
  fun _ hb => nomatch hb

theorem runAttempts_ok_none {env : List Char → Option ITunesResponse} {albumName : List Char}
    {artistList : List (List Char)} {releaseDate : List Char} {st1 : Option BestMatch} :
    ∀ qs : List (Nat × List Char),
      runAttempts env albumName artistList releaseDate none qs = .ok st1 → st1 = none := by
  intro qs
  induction qs with
  | nil =>
    intro h
    simp only [runAttempts] at h
    cases h
    rfl
  | cons aq qs ih =>
    intro h
    simp only [runAttempts] at h
    cases hpq : processQuery env albumName artistList releaseDate none aq.1 aq.2 with
    | error e =>
      rw [hpq] at h
      cases h
    | ok st2 =>
      rw [hpq] at h
      have h2 : st2 = none := by
        rcases processQuery_ok goodState_none hpq with h2 | h2
        · exact h2
        · exact h2
      subst h2
      exact ih h

theorem runAttempts_found_ne {env : List Char → Option ITunesResponse} {albumName : List Char}
    {artistList : List (List Char)} {releaseDate : List Char} {u : List Char} :
    ∀ qs : List (Nat × List Char),
      runAttempts env albumName artistList releaseDate none qs = .error (.found u) →
      u ≠ [] := by
  intro qs
  induction qs with
  | nil =>
    intro h
    simp only [runAttempts] at h
    cases h
  | cons aq qs ih =>
    intro h
    simp only [runAttempts] at h
    cases hpq : processQuery env albumName artistList releaseDate none aq.1 aq.2 with
    | error e =>
      rw [hpq] at h
      cases e with
      | exn => cases h
      | found v =>
        have hv : v = u := SearchExit.found.inj (Except.error.inj h)
        subst hv
        exact processQuery_found goodState_none hpq
    | ok st2 =>
      rw [hpq] at h
      have h2 : st2 = none := by
        rcases processQuery_ok goodState_none hpq with h2 | h2
        · exact h2
        · exact h2
      subst h2
      exact ih h

/-- C9: every recorded best match scores at least 100 (album and artist
validation each contribute at least 50), so any query attempt that records a
best match early-returns at its end; consequently the final weak-acceptance
branch (best score in [75, 100)) never produces the result, and the whole
search behaves as if that branch returned `None`. -/
theorem weak_acceptance_branch_dead (env : List Char → Option ITunesResponse)
    (albumName artistName releaseDate : List Char) :
    search_itunes_for_album env albumName artistName releaseDate
      = search_itunes_strong_only env albumName artistName releaseDate := by
  unfold search_itunes_for_album search_itunes_strong_only
  cases hr : runAttempts env albumName (artistListOf artistName) releaseDate none
      (searchAttempts albumName artistName) with
  | error e => cases e <;> rfl
  | ok st =>
    have h := runAttempts_ok_none _ hr
    subst h
    rfl

/-- C2: the query strategies are tried in order with a single tracked best
match; whenever processing the first query's candidates records a best match
`b` (whose score is then necessarily at least 100), the search returns `b`'s
URL at the end of that attempt, whatever candidates — including higher-scoring
ones — the later queries would have returned. -/
theorem early_stop_returns_first_query_best (env : List Char → Option ITunesResponse)
    (albumName artistName releaseDate : List Char) (data : ITunesResponse) (b : BestMatch)
    (h1 : env (firstQuery albumName artistName) = some data)
    (h2 : 0 < data.resultCount)
    (h3 : foldResults albumName (artistListOf artistName) releaseDate 1 none data.results
      = .ok (some b)) :
    search_itunes_for_album env albumName artistName releaseDate = some b.url := by
  have hgood : goodState (some b) :=
    foldResults_good data.results none (some b) (fun c hc => nomatch hc) h3
  have hscore : 100 ≤ b.score := (hgood b rfl).1
  have hpq : processQuery env albumName (artistListOf artistName) releaseDate none 1
      (firstQuery albumName artistName) = .error (.found b.url) := by
    simp only [processQuery, h1]
    rw [if_pos h2]
    simp only [h3, earlyCheck]
    rw [if_pos hscore]
  have hatt : searchAttempts albumName artistName
      = [(1, firstQuery albumName artistName), (2, albumName),
         (3, albumName ++ [' '] ++ artistName)] := rfl
  unfold search_itunes_for_album
  rw [hatt]
  simp only [runAttempts, hpq]

/-- C2 witness: the first query returns a fuzzy-title, exact-artist candidate
(score 150, URL `u1`); a later query would return an exact candidate scoring
250 with URL `u2`, but `u1` is returned. -/
theorem early_stop_returns_first_query_best_witness :
    search_itunes_for_album wEnvSearch "alpha".toList "beta".toList "2026-01-01".toList
      = some "u1".toList :=
  early_stop_returns_first_query_best wEnvSearch "alpha".toList "beta".toList
    "2026-01-01".toList ⟨1, [wItunesHit]⟩ ⟨"u1".toList, 150, 1⟩ (by rfl) (by decide) (by rfl)

theorem search_some_ne_nil {env : List Char → Option ITunesResponse}
    {albumName artistName releaseDate u : List Char}
    (h : search_itunes_for_album env albumName artistName releaseDate = some u) :
    u ≠ [] := by
  unfold search_itunes_for_album at h
  cases hr : runAttempts env albumName (artistListOf artistName) releaseDate none
      (searchAttempts albumName artistName) with
  | error e =>
    cases e with
    | exn =>
      rw [hr] at h
      cases h
    | found v =>
      rw [hr] at h
      have hv : v = u := Option.some.inj h
      subst hv
      exact runAttempts_found_ne _ hr
  | ok st =>
    have hn := runAttempts_ok_none _ hr
    subst hn
    rw [hr] at h
    cases h

/-- C1: for every environment and well-formed album record,
`get_album_details` returns a record whose `apple_music_url` is a non-empty
string: the matched URL when `search_itunes_for_album` returns one, else the
constructed fallback search URL; it never fails and never leaves the field
absent. -/
theorem resolver_always_returns_url (env : List Char → Option ITunesResponse)
    (album : Album) (_h : album.artists ≠ []) :
    (get_album_details env album).apple_music_url ≠ []
    ∧ ((∃ u, search_itunes_for_album env album.name (joinedArtists album) album.release_date
          = some u
        ∧ (get_album_details env album).apple_music_url = u)
      ∨ (search_itunes_for_album env album.name (joinedArtists album) album.release_date
          = none
        ∧ (get_album_details env album).apple_music_url = fallbackSearchUrl album)) := by
  cases hs : search_itunes_for_album env album.name (joinedArtists album) album.release_date with
  | some u =>
    have hu : u ≠ [] := search_some_ne_nil hs
    have htr : truthy (some u) = true := by
      cases u with
      | nil => exact absurd rfl hu
      | cons c cs => rfl
    have happ : (get_album_details env album).apple_music_url = u := by
      simp only [get_album_details, hs, htr, if_true, Option.getD]
    exact ⟨happ ▸ hu, Or.inl ⟨u, rfl, happ⟩⟩
  | none =>
    have happ : (get_album_details env album).apple_music_url = fallbackSearchUrl album := by
      simp only [get_album_details, hs, truthy, Bool.false_eq_true, if_false]
    refine ⟨?_, Or.inr ⟨rfl, happ⟩⟩
    rw [happ]
    unfold fallbackSearchUrl
    intro hcontra
    have h1 := (List.append_eq_nil.mp hcontra).1
    exact (by decide : "https://music.apple.com/us/search?term=".toList ≠ []) h1

/-- C1 witness: a concrete album against an environment whose search always
fails, so the fallback URL is produced; it is non-empty. -/
theorem resolver_always_returns_url_witness :
    (get_album_details wEnvNoItunes wAlbumRecent).apple_music_url ≠ []
    ∧ ((∃ u, search_itunes_for_album wEnvNoItunes wAlbumRecent.name
          (joinedArtists wAlbumRecent) wAlbumRecent.release_date = some u
        ∧ (get_album_details wEnvNoItunes wAlbumRecent).apple_music_url = u)
      ∨ (search_itunes_for_album wEnvNoItunes wAlbumRecent.name
          (joinedArtists wAlbumRecent) wAlbumRecent.release_date = none
        ∧ (get_album_details wEnvNoItunes wAlbumRecent).apple_music_url
          = fallbackSearchUrl wAlbumRecent)) :=
  resolver_always_returns_url wEnvNoItunes wAlbumRecent (by decide)
